import Mathlib

/-!
Verification of the iCompressor archive-operation service
(`src/services/compressor.ts`, both shipped variants of the file).

The development shallowly embeds the pure decision logic of the service
(format classification from a path suffix, backend dispatch and input
validation in `compress`, the `test` result classifier) and the
event-handler semantics of the asynchronous operations
(`compressWithArchiver`, `compress7z`, `extract`) as step functions on
explicit state, driven by traces of incoming events (timer ticks,
native progress ticks of the backend, stream termination signals).

The source file contains two variants of the service:
* variant 1 (`V1`): `compressWithArchiver` drives progress with a
  time-estimate ticker `min(95, round(95·t/(t+500)))` every 400 ms and
  has no completion latch;
* variant 2 (`V2`): `compressWithArchiver` drives progress from
  processed bytes, throttled to strict increases, guarded by an
  `isResolved` completion latch; `compress7z` verifies a non-empty
  output file before reporting failure.
`extract`, `test`, `getFormatFromPath` and the `compress` dispatch are
identical in both variants.
-/

/-! ## String primitives (model of JS `toLowerCase`, `endsWith`, `includes`) -/

/-- ASCII lower-casing of one character, the fragment of JS
`String.prototype.toLowerCase` exercised by the service (all needles are
ASCII). -/
def charToLower (c : Char) : Char :=
  if 'A' ≤ c ∧ c ≤ 'Z' then Char.ofNat (c.toNat + 32) else c

/-- Model of JS `toLowerCase` on the character sequence of a string. -/
def lowerStr (s : String) : String :=
  ⟨s.data.map charToLower⟩

/-- `isPrefixChars pat s`: `pat` is a prefix of `s` (character lists). -/
def isPrefixChars : List Char → List Char → Bool
  | [], _ => true
  | _ :: _, [] => false
  | a :: as, b :: bs => a == b && isPrefixChars as bs

/-- `containsChars pat s`: `pat` occurs as a contiguous block of `s`. -/
def containsChars (pat : List Char) : List Char → Bool
  | [] => isPrefixChars pat []
  | s@(_ :: rest) => isPrefixChars pat s || containsChars pat rest

/-- Model of JS `String.prototype.includes`. -/
def strContains (s pat : String) : Bool :=
  containsChars pat.data s.data

/-- Model of JS `String.prototype.endsWith`. -/
def strEndsWith (s pat : String) : Bool :=
  isPrefixChars pat.data.reverse s.data.reverse

/-! ## Format classification (`getFormatFromPath`, both variants identical) -/

/-- Embedding of `getFormatFromPath` (compressor.ts): lower-case the path,
check the two-part suffix `.tar.gz` and the alias `.tgz` first, then the
single suffixes, else return the empty string (no recognized format). -/
def getFormatFromPath (filePath : String) : String :=
  let lower := lowerStr filePath
  if strEndsWith lower ".tar.gz" || strEndsWith lower ".tgz" then "targz"
  else if strEndsWith lower ".7z" then "7z"
  else if strEndsWith lower ".zip" then "zip"
  else if strEndsWith lower ".rar" then "rar"
  else if strEndsWith lower ".tar" then "tar"
  else ""

/-- None of the six recognized suffixes matches (after lower-casing). -/
def unrecognizedSuffix (p : String) : Bool :=
  let lower := lowerStr p
  !(strEndsWith lower ".tar.gz" || strEndsWith lower ".tgz" ||
    strEndsWith lower ".7z" || strEndsWith lower ".zip" ||
    strEndsWith lower ".rar" || strEndsWith lower ".tar")

/-! ## Compress dispatch (`compress`, both variants identical) -/

/-- JS truthiness of the optional `password` field: present and non-empty. -/
def truthyPw : Option String → Bool
  | none => false
  | some s => s ≠ ""

structure CompressPayload where
  sources : List String
  outputPath : String
  format : String
  level : Int
  password : Option String
  deriving Repr, DecidableEq

/-- What `compress` decides to do before any backend work happens. -/
inductive CompressAction
  | fail (error : String)
  | useExternal
  | useStreaming
  deriving Repr, DecidableEq

/-- Does the action hand the request to a backend (the only code paths
that create an output file)? -/
def CompressAction.invokesBackend : CompressAction → Bool
  | .fail _ => false
  | .useExternal => true
  | .useStreaming => true

/-- Embedding of the validation/dispatch prefix of `compress`
(compressor.ts, identical in both variants): empty sources fail; a
truthy password with `tar`/`targz` fails with the descriptive message;
`7z`, or `zip` with a truthy password, goes to the external (`node-7z`)
backend; everything else goes to the streaming (`archiver`) backend. -/
def compressDispatch (p : CompressPayload) : CompressAction :=
  if p.sources.isEmpty then .fail "No sources selected"
  else if truthyPw p.password && (p.format == "tar" || p.format == "targz") then
    .fail "TAR/TAR.GZ formats do not support password encryption. Please use ZIP or 7Z."
  else if p.format == "7z" || (p.format == "zip" && truthyPw p.password) then
    .useExternal
  else .useStreaming

/-! ## Theorems: C4, C5, C6 -/

/-- C4: format classification checks the two-part suffix `.tar.gz` and the
alias `.tgz` (both mapping to `targz`) before the single suffixes `.7z`,
`.zip`, `.rar`, `.tar`, returns the empty marker for any unrecognized
suffix, and in particular maps `archive.tar.gz` and `archive.tgz` to
`targz` and `notes.txt` to no format. -/
theorem C4_classifyFormat :
    (∀ p : String,
      (strEndsWith (lowerStr p) ".tar.gz" || strEndsWith (lowerStr p) ".tgz") = true →
      getFormatFromPath p = "targz") ∧
    (∀ p : String, unrecognizedSuffix p = true → getFormatFromPath p = "") ∧
    getFormatFromPath "archive.tar.gz" = "targz" ∧
    getFormatFromPath "archive.tgz" = "targz" ∧
    getFormatFromPath "notes.txt" = "" := by
  refine ⟨?_, ?_, by decide, by decide, by decide⟩
  · intro p h
    simp only [getFormatFromPath, h]
    simp
  · intro p h
    simp only [unrecognizedSuffix, Bool.not_eq_true', Bool.or_eq_false_iff] at h
    obtain ⟨⟨⟨⟨⟨h1, h2⟩, h3⟩, h4⟩, h5⟩, h6⟩ := h
    simp [getFormatFromPath, h1, h2, h3, h4, h5, h6]

/-- Witness for C4 at concrete inputs. -/
theorem C4_classifyFormat_witness :
    getFormatFromPath "A.TgZ" = "targz" ∧ getFormatFromPath "x.bin" = "" :=
  ⟨C4_classifyFormat.1 "A.TgZ" (by decide), C4_classifyFormat.2.1 "x.bin" (by decide)⟩

/-- C5: for every compress request passing input validation, ZIP, TAR and
TAR.GZ without a (truthy) password select the streaming backend, 7Z always
selects the external backend, and ZIP with a password selects the external
backend. -/
theorem C5_backend_selection (p : CompressPayload) (hs : p.sources ≠ []) :
    ((p.format = "zip" ∨ p.format = "tar" ∨ p.format = "targz") →
      truthyPw p.password = false → compressDispatch p = .useStreaming) ∧
    (p.format = "7z" → compressDispatch p = .useExternal) ∧
    (p.format = "zip" → truthyPw p.password = true →
      compressDispatch p = .useExternal) := by
  have hne : p.sources.isEmpty = false := by
    cases h : p.sources with
    | nil => exact absurd h hs
    | cons a l => simp [List.isEmpty]
  refine ⟨?_, ?_, ?_⟩
  · rintro (hf | hf | hf) hpw <;> simp [compressDispatch, hne, hf, hpw]
  · intro hf
    simp [compressDispatch, hne, hf]
  · intro hf hpw
    simp [compressDispatch, hne, hf, hpw]

/-- Witness for C5 on concrete payloads: plain ZIP streams, 7Z and
password-ZIP go external. -/
theorem C5_backend_selection_witness :
    compressDispatch ⟨["a"], "out.zip", "zip", 6, none⟩ = .useStreaming ∧
    compressDispatch ⟨["a"], "out.7z", "7z", 6, some "pw"⟩ = .useExternal ∧
    compressDispatch ⟨["a"], "out.zip", "zip", 6, some "pw"⟩ = .useExternal :=
  ⟨(C5_backend_selection ⟨["a"], "out.zip", "zip", 6, none⟩ (by decide)).1
      (Or.inl rfl) (by decide),
   (C5_backend_selection ⟨["a"], "out.7z", "7z", 6, some "pw"⟩ (by decide)).2.1 rfl,
   (C5_backend_selection ⟨["a"], "out.zip", "zip", 6, some "pw"⟩ (by decide)).2.2
      rfl (by decide)⟩

/-- C6: with non-empty sources, format `tar` or `targz` and a truthy
password, `compress` fails with the descriptive message before any backend
is selected (and hence before any output file could be created). -/
theorem C6_tar_password_rejected (p : CompressPayload) (hs : p.sources ≠ [])
    (hpw : truthyPw p.password = true)
    (hf : p.format = "tar" ∨ p.format = "targz") :
    compressDispatch p =
      .fail "TAR/TAR.GZ formats do not support password encryption. Please use ZIP or 7Z." ∧
    (compressDispatch p).invokesBackend = false := by
  have hne : p.sources.isEmpty = false := by
    cases h : p.sources with
    | nil => exact absurd h hs
    | cons a l => simp [List.isEmpty]
  have : compressDispatch p =
      .fail "TAR/TAR.GZ formats do not support password encryption. Please use ZIP or 7Z." := by
    rcases hf with hf | hf <;> simp [compressDispatch, hne, hf, hpw]
  exact ⟨this, by rw [this]; rfl⟩

/-- Witness for C6 on a concrete payload. -/
theorem C6_tar_password_rejected_witness :
    compressDispatch ⟨["a"], "out.tar", "tar", 6, some "pw"⟩ =
      .fail "TAR/TAR.GZ formats do not support password encryption. Please use ZIP or 7Z." :=
  (C6_tar_password_rejected ⟨["a"], "out.tar", "tar", 6, some "pw"⟩
    (by decide) (by decide) (Or.inl rfl)).1

/-! ## Generic event-trace runner

The asynchronous operations are embedded as Mealy-style step functions on
explicit state; `runM` folds a step function over a trace of incoming
events, concatenating the outputs each handler emits. -/

def runM {S E O : Type} (step : S → E → S × List O) :
    S → List E → S × List O
  | s, [] => (s, [])
  | s, e :: es =>
    let p := step s e
    let q := runM step p.1 es
    (q.1, p.2 ++ q.2)

theorem runM_append {S E O : Type} (step : S → E → S × List O)
    (s : S) (a b : List E) :
    runM step s (a ++ b) =
      ((runM step (runM step s a).1 b).1,
       (runM step s a).2 ++ (runM step (runM step s a).1 b).2) := by
  induction a generalizing s with
  | nil => simp [runM]
  | cons e es ih => simp [runM, ih (step s e).1, List.append_assoc]

/-! ## Source-size walk of the streaming backend (`getSize`, `totalBytes`)

`getSize` (both variants) stats a path inside a `try`: a directory
contributes the sum over its children, a file its size, and any path whose
`stat`/`readdir` throws contributes 0. The filesystem subtree reachable
from one source path is modelled as a tree. -/

inductive FsTree
  | file (size : Nat)
  | dir (children : List FsTree)
  | inaccessible
  deriving Repr

mutual
/-- Embedding of `getSize` (compressor.ts, both variants): file → its
size, directory → sum over children, stat failure → 0. -/
def getSize : FsTree → Nat
  | .file n => n
  | .dir cs => getSizeList cs
  | .inaccessible => 0

def getSizeList : List FsTree → Nat
  | [] => 0
  | t :: ts => getSize t + getSizeList ts
end

/-- `sources.reduce((s, src) => s + getSize(src), 0)`. -/
def sumSizes (sources : List FsTree) : Nat :=
  sources.foldl (fun s t => s + getSize t) 0

/-- Embedding of `totalBytes` (variant 2 `compressWithArchiver`):
`Math.max(1, sources.reduce(...))`. -/
def totalBytes (sources : List FsTree) : Nat :=
  max 1 (sumSizes sources)

/-- The raw percentage of the byte-driven progress handler (variant 2
`compressWithArchiver`): `Math.min(99, Math.round((processed / totalBytes) * 100))`. -/
def byteRawPct (tb : Nat) (processed : Nat) : Int :=
  min 99 (round ((processed : ℚ) / (tb : ℚ) * 100))

/-- C10: the streaming-backend progress denominator is clamped to at least
one byte — a stat-failing source contributes size 0 and the sum is taken
under `max 1 ·` — so the denominator is positive (never a division by
zero) and the raw percentage is a well-defined value in `[0, 99]` for
every processed-byte count. -/
theorem C10_denominator_clamped (sources : List FsTree) :
    1 ≤ totalBytes sources ∧
    getSize .inaccessible = 0 ∧
    totalBytes sources = max 1 (sumSizes sources) ∧
    (∀ processed : Nat,
      0 ≤ byteRawPct (totalBytes sources) processed ∧
      byteRawPct (totalBytes sources) processed ≤ 99) := by
  refine ⟨le_max_left _ _, rfl, rfl, ?_⟩
  intro processed
  constructor
  · have htb : (0 : ℚ) < (totalBytes sources : ℚ) := by
      have : 1 ≤ totalBytes sources := le_max_left _ _
      exact_mod_cast Nat.lt_of_lt_of_le Nat.zero_lt_one this
    have hq : (0 : ℚ) ≤ (processed : ℚ) / (totalBytes sources : ℚ) * 100 := by
      positivity
    have : (0 : ℤ) ≤ round ((processed : ℚ) / (totalBytes sources : ℚ) * 100) := by
      rw [round_eq]
      rw [Int.le_floor]
      push_cast
      linarith
    exact le_min (by norm_num) this
  · exact min_le_left _ _

/-! ## Progress events and operation results -/

structure ProgressEvent where
  percent : Int
  status : String
  deriving Repr, DecidableEq

/-- A terminal progress signal: the success event `100` or the
failure reset `0` with an empty status. -/
def isTermEmit (e : ProgressEvent) : Bool :=
  e.percent == 100 || (e.percent == 0 && e.status == "")

structure CompressResult where
  success : Bool
  outputPath : Option String
  error : Option String
  deriving Repr, DecidableEq

/-- JS `error || 'dflt'` on the error-message string. -/
def errMsgOr (m dflt : String) : String :=
  if m = "" then dflt else m

/-! ## Variant 2 `compressWithArchiver`: byte-driven machine with latch

Events delivered to the promise executor: an `archiver` progress tick
carrying `processedBytes`, the output stream `close`, an `archiver`
`error`, or an output-stream `error`. -/

inductive ByteEvent
  | aprogress (processed : Nat)
  | closeEv
  | archiveError (msg : String)
  | outputError (msg : String)
  deriving Repr, DecidableEq

def ByteEvent.isTerminal : ByteEvent → Bool
  | .aprogress _ => false
  | .closeEv => true
  | .archiveError _ => true
  | .outputError _ => true

structure ByteState where
  lastPercent : Int
  isResolved : Bool
  deriving Repr, DecidableEq

/-- An observable output of the executor: a progress emission or a call
to the promise `resolve`. -/
inductive ByteOut
  | emit (e : ProgressEvent)
  | resolve (r : CompressResult)
  deriving Repr, DecidableEq

def ByteOut.isResolve : ByteOut → Bool
  | .resolve _ => true
  | .emit _ => false

def ByteOut.isTerminalEmit : ByteOut → Bool
  | .emit e => isTermEmit e
  | .resolve _ => false

/-- The percent of a non-terminal progress emission, if this output is one. -/
def ByteOut.progressPercent : ByteOut → Option Int
  | .emit e => if isTermEmit e then none else some e.percent
  | .resolve _ => none

/-- Embedding of variant 2 `compressWithArchiver`'s handlers: the
`progress` handler computes `min(99, round(processed/totalBytes·100))`
and emits only on a strict increase over `lastPercent`; `close` finishes
with success, either `error` finishes with failure, and `finish` is
guarded by the `isResolved` latch. -/
def byteStep (tb : Nat) (outPath : String) (s : ByteState) :
    ByteEvent → ByteState × List ByteOut
  | .aprogress processed =>
    let rawPct := byteRawPct tb processed
    if s.lastPercent < rawPct then
      ({ s with lastPercent := rawPct },
       [.emit ⟨rawPct, "Compressing... " ++ toString rawPct ++ "%"⟩])
    else (s, [])
  | .closeEv =>
    if s.isResolved then (s, [])
    else ({ s with isResolved := true },
          [.emit ⟨100, "Complete"⟩, .resolve ⟨true, some outPath, none⟩])
  | .archiveError m =>
    if s.isResolved then (s, [])
    else ({ s with isResolved := true },
          [.emit ⟨0, ""⟩, .resolve ⟨false, none, some (errMsgOr m "Unknown error")⟩])
  | .outputError m =>
    if s.isResolved then (s, [])
    else ({ s with isResolved := true },
          [.emit ⟨0, ""⟩, .resolve ⟨false, none, some (errMsgOr m "Unknown error")⟩])

def byteInit : ByteState := ⟨0, false⟩

/-! ## Variant 1 `compressWithArchiver`: time-estimate machine, no latch

Events: a 400 ms-interval ticker firing at elapsed time `t` (ms), the
output stream `close`, or an `archiver` `error`. The handlers for
`close`/`error` clear the ticker, emit their terminal event and call
`resolve` — with no completion latch. -/

inductive CurveEvent
  | tick (t : ℚ)
  | closeEv
  | archiveError (msg : String)
  deriving Repr, DecidableEq

def CurveEvent.isTerminal : CurveEvent → Bool
  | .tick _ => false
  | .closeEv => true
  | .archiveError _ => true

/-- `Math.min(95, Math.round(95 * elapsed / (elapsed + 500)))`. -/
def curvePct (t : ℚ) : Int :=
  min 95 (round (95 * t / (t + 500)))

structure CurveState where
  tickerOn : Bool
  deriving Repr, DecidableEq

inductive CurveOut
  | emit (e : ProgressEvent)
  | resolve (r : CompressResult)
  deriving Repr, DecidableEq

def CurveOut.isResolve : CurveOut → Bool
  | .resolve _ => true
  | .emit _ => false

def CurveOut.isTerminalEmit : CurveOut → Bool
  | .emit e => isTermEmit e
  | .resolve _ => false

/-- Embedding of variant 1 `compressWithArchiver`'s handlers. A tick
delivered after `clearInterval` (ticker off) fires nothing. -/
def curveStep (outPath : String) (s : CurveState) :
    CurveEvent → CurveState × List CurveOut
  | .tick t =>
    if s.tickerOn then
      (s, [.emit ⟨curvePct t, "Compressing... " ++ toString (curvePct t) ++ "%"⟩])
    else (s, [])
  | .closeEv =>
    (⟨false⟩, [.emit ⟨100, "Complete"⟩, .resolve ⟨true, some outPath, none⟩])
  | .archiveError m =>
    (⟨false⟩, [.emit ⟨0, ""⟩, .resolve ⟨false, none, some m⟩])

def curveOutEmits (l : List CurveOut) : List ProgressEvent :=
  l.filterMap fun o => match o with | .emit e => some e | .resolve _ => none

/-- The full emission stream of one variant 1 `compressWithArchiver`
run: the initial `progress(1, 'Compressing... 1%')` followed by whatever
the handlers emit on the trace. -/
def curveEmits (outPath : String) (tr : List CurveEvent) : List ProgressEvent :=
  ⟨1, "Compressing... 1%"⟩ :: curveOutEmits (runM (curveStep outPath) ⟨true⟩ tr).2

/-- The elapsed times of the ticks of a trace, in order. -/
def curveTickTimes (tr : List CurveEvent) : List ℚ :=
  tr.filterMap fun e => match e with | .tick t => some t | _ => none

/-- The terminal emission of variant 1 `compressWithArchiver` for a
terminal event (`close` → 100/Complete, `error` → reset to 0). -/
def curveTermEmit : CurveEvent → ProgressEvent
  | .closeEv => ⟨100, "Complete"⟩
  | .archiveError _ => ⟨0, ""⟩
  | .tick _ => ⟨0, ""⟩

/-! ## `extract` (variant 2; identical in variant 1): interpolation machine

Events: the 80 ms interpolation tick, a native `node-7z` progress tick
carrying a percent, the stream `end`, or the stream `error`.  The JS
constants 0.5 and 0.3 are embedded as the rationals 1/2 and 3/10. -/

inductive InterpEvent
  | tick
  | native (pct : ℚ)
  | endEv
  | streamError (msg : String)
  deriving Repr, DecidableEq

def InterpEvent.isTerminal : InterpEvent → Bool
  | .tick => false
  | .native _ => false
  | .endEv => true
  | .streamError _ => true

structure InterpState where
  target : ℚ
  current : ℚ
  tickerOn : Bool
  deriving Repr, DecidableEq

/-- One easing step of the displayed percentage:
`Math.min(target, current + Math.max(0.5, (target - current) * 0.3))`. -/
def interpAdvance (s : InterpState) : ℚ :=
  min s.target (s.current + max (1 / 2) ((s.target - s.current) * (3 / 10)))

/-- Embedding of `extract`'s handlers: the ticker eases `current` toward
`target` and emits the rounded value; a native tick only ever raises
`target`, capped at 99; `end`/`error` clear the ticker and emit the
terminal event. -/
def interpStep (s : InterpState) : InterpEvent → InterpState × List ProgressEvent
  | .tick =>
    if s.tickerOn && s.current < s.target then
      let c := interpAdvance s
      ({ s with current := c },
       [⟨round c, "Extracting... " ++ toString (round c) ++ "%"⟩])
    else (s, [])
  | .native pct =>
    if s.target < pct then ({ s with target := min 99 pct }, []) else (s, [])
  | .endEv => ({ s with tickerOn := false }, [⟨100, "Complete"⟩])
  | .streamError _ => ({ s with tickerOn := false }, [⟨0, ""⟩])

/-- Initial interpolation state: `targetPercent = 1`, `currentPercent = 0`,
ticker running. -/
def interpInit : InterpState := ⟨1, 0, true⟩

/-- The full emission stream of one `extract` run: the initial
`progress(1, 'Extracting... 1%')` followed by the handlers' emissions. -/
def interpEmits (tr : List InterpEvent) : List ProgressEvent :=
  ⟨1, "Extracting... 1%"⟩ :: (runM interpStep interpInit tr).2

/-- The terminal emission of `extract` for a terminal event. -/
def interpTermEmit : InterpEvent → ProgressEvent
  | .endEv => ⟨100, "Complete"⟩
  | .streamError _ => ⟨0, ""⟩
  | .tick => ⟨0, ""⟩
  | .native _ => ⟨0, ""⟩

/-! ## Arithmetic facts about `round` and the time-estimate curve -/

theorem round_mono_rat {x y : ℚ} (h : x ≤ y) : round x ≤ round y := by
  rw [round_eq, round_eq]
  exact Int.floor_mono (by linarith)

theorem curvePct_mono {t u : ℚ} (h0 : 0 ≤ t) (h : t ≤ u) :
    curvePct t ≤ curvePct u := by
  unfold curvePct
  refine min_le_min (le_refl _) (round_mono_rat ?_)
  have h1 : (0:ℚ) < t + 500 := by linarith
  have h2 : (0:ℚ) < u + 500 := by linarith
  rw [div_le_div_iff₀ h1 h2]
  nlinarith

theorem one_le_curvePct {t : ℚ} (h : 400 ≤ t) : 1 ≤ curvePct t := by
  have h42 : (1:Int) ≤ curvePct 400 := by
    unfold curvePct
    refine le_min (by norm_num) ?_
    rw [round_eq, Int.le_floor]
    norm_num
  exact le_trans h42 (curvePct_mono (by norm_num) h)

theorem curvePct_100000 : curvePct 100000 = 95 := by
  unfold curvePct
  refine min_eq_left ?_
  rw [round_eq, Int.le_floor]
  norm_num

theorem curvePct_100400 : curvePct 100400 = 95 := by
  unfold curvePct
  refine min_eq_left ?_
  rw [round_eq, Int.le_floor]
  norm_num

/-! ## Structural lemmas for the variant 1 time-estimate machine -/

theorem curve_emits_map (op : String) (tr : List CurveEvent)
    (h : ∀ x ∈ tr, x.isTerminal = false) :
    (curveOutEmits (runM (curveStep op) ⟨true⟩ tr).2).map ProgressEvent.percent
      = (curveTickTimes tr).map curvePct := by
  induction tr with
  | nil => simp [runM, curveOutEmits, curveTickTimes]
  | cons e es ih =>
    have hes : ∀ x ∈ es, x.isTerminal = false :=
      fun x hx => h x (List.mem_cons_of_mem _ hx)
    cases e with
    | tick t =>
      have h1 : curveOutEmits ((runM (curveStep op) ⟨true⟩ (CurveEvent.tick t :: es)).2)
          = ⟨curvePct t, "Compressing... " ++ toString (curvePct t) ++ "%"⟩ ::
            curveOutEmits (runM (curveStep op) ⟨true⟩ es).2 := by
        simp [runM, curveStep, curveOutEmits]
      rw [h1, List.map_cons, ih hes]
      simp [curveTickTimes]
    | closeEv =>
      exact absurd (h _ (List.mem_cons_self _ _)) (by simp [CurveEvent.isTerminal])
    | archiveError m =>
      exact absurd (h _ (List.mem_cons_self _ _)) (by simp [CurveEvent.isTerminal])

theorem curve_state_nonterm (op : String) (tr : List CurveEvent)
    (h : ∀ x ∈ tr, x.isTerminal = false) :
    (runM (curveStep op) ⟨true⟩ tr).1 = ⟨true⟩ := by
  induction tr with
  | nil => rfl
  | cons e es ih =>
    have hes : ∀ x ∈ es, x.isTerminal = false :=
      fun x hx => h x (List.mem_cons_of_mem _ hx)
    cases e with
    | tick t => simpa [runM, curveStep] using ih hes
    | closeEv =>
      exact absurd (h _ (List.mem_cons_self _ _)) (by simp [CurveEvent.isTerminal])
    | archiveError m =>
      exact absurd (h _ (List.mem_cons_self _ _)) (by simp [CurveEvent.isTerminal])

theorem curveRun_off (op : String) (tr : List CurveEvent)
    (h : ∀ x ∈ tr, x.isTerminal = false) :
    runM (curveStep op) ⟨false⟩ tr = (⟨false⟩, []) := by
  induction tr with
  | nil => rfl
  | cons e es ih =>
    have hes : ∀ x ∈ es, x.isTerminal = false :=
      fun x hx => h x (List.mem_cons_of_mem _ hx)
    cases e with
    | tick t => simpa [runM, curveStep] using ih hes
    | closeEv =>
      exact absurd (h _ (List.mem_cons_self _ _)) (by simp [CurveEvent.isTerminal])
    | archiveError m =>
      exact absurd (h _ (List.mem_cons_self _ _)) (by simp [CurveEvent.isTerminal])

theorem curveStep_term (op : String) (s : CurveState) (e : CurveEvent)
    (h : e.isTerminal = true) :
    (curveStep op s e).1 = ⟨false⟩ ∧
    curveOutEmits (curveStep op s e).2 = [curveTermEmit e] := by
  cases e with
  | tick t => simp [CurveEvent.isTerminal] at h
  | closeEv => exact ⟨rfl, rfl⟩
  | archiveError m => exact ⟨rfl, rfl⟩

theorem chain_map_curvePct (t : ℚ) (ts : List ℚ) (ht : 400 ≤ t)
    (hall : ∀ x ∈ ts, 400 ≤ x) (hch : List.Chain (· ≤ ·) t ts) :
    List.Chain (· ≤ ·) (curvePct t) (ts.map curvePct) := by
  induction ts generalizing t with
  | nil => exact List.Chain.nil
  | cons u us ih =>
    rw [List.chain_cons] at hch
    refine List.Chain.cons (curvePct_mono (by linarith) hch.1) ?_
    exact ih u (hall u (List.mem_cons_self _ _))
      (fun x hx => hall x (List.mem_cons_of_mem _ hx)) hch.2

theorem chain_one_curve (times : List ℚ) (hall : ∀ t ∈ times, 400 ≤ t)
    (hch : List.Chain' (· ≤ ·) times) :
    List.Chain (· ≤ ·) 1 (times.map curvePct) := by
  cases times with
  | nil => exact List.Chain.nil
  | cons t ts =>
    rw [List.map_cons]
    refine List.Chain.cons (one_le_curvePct (hall t (List.mem_cons_self _ _))) ?_
    exact chain_map_curvePct t ts (hall t (List.mem_cons_self _ _))
      (fun x hx => hall x (List.mem_cons_of_mem _ hx)) hch

/-! ## Counterexamples on the variant 1 machine (claims C7 and C8) -/

/-- C7 counterexample: in variant 1 `compressWithArchiver` (also a
streaming-backend compression), the ticker at elapsed times 100000 ms and
100400 ms emits the capped time-estimate percent 95 twice in a row, so the
emitted percentages are neither equal to the byte-driven formula's output
stream nor emitted only on a strict increase over the last emitted value. -/
theorem C7_counterexample :
    (curveEmits "out.zip" [CurveEvent.tick 100000, CurveEvent.tick 100400]).map
        ProgressEvent.percent = [1, 95, 95] ∧
    ¬ List.Chain' (· < ·)
      ((curveEmits "out.zip" [CurveEvent.tick 100000, CurveEvent.tick 100400]).map
        ProgressEvent.percent) := by
  have hmap : (curveEmits "out.zip" [CurveEvent.tick 100000, CurveEvent.tick 100400]).map
      ProgressEvent.percent = [1, 95, 95] := by
    simp [curveEmits, curveOutEmits, runM, curveStep, curvePct_100000, curvePct_100400]
  exact ⟨hmap, by rw [hmap]; norm_num [List.chain'_cons]⟩

/-- C8 counterexample: variant 1 `compressWithArchiver` has no completion
latch — when both the output stream `close` and an `archiver` `error`
fire, the handlers emit two terminal progress signals (100/'Complete'
then the 0-reset) and invoke `resolve` twice. -/
theorem C8_counterexample :
    ((runM (curveStep "out.zip") ⟨true⟩
        [CurveEvent.closeEv, CurveEvent.archiveError "boom"]).2.countP
        CurveOut.isTerminalEmit) = 2 ∧
    ((runM (curveStep "out.zip") ⟨true⟩
        [CurveEvent.closeEv, CurveEvent.archiveError "boom"]).2.countP
        CurveOut.isResolve) = 2 := by
  constructor <;> rfl

/-! ## Invariant and lemmas for the interpolation machine -/

theorem curveOutEmits_append (a b : List CurveOut) :
    curveOutEmits (a ++ b) = curveOutEmits a ++ curveOutEmits b :=
  List.filterMap_append a b _

/-- The state invariant of the interpolation machine: the displayed
percentage is non-negative and never past the target, and the target
stays in `[1, 99]`. -/
def InterpInv (s : InterpState) : Prop :=
  0 ≤ s.current ∧ s.current ≤ s.target ∧ 1 ≤ s.target ∧ s.target ≤ 99

theorem interpAdvance_bounds {s : InterpState} (hJ : InterpInv s)
    (hlt : s.current < s.target) :
    s.current < interpAdvance s ∧ interpAdvance s ≤ s.target ∧
    (1 / 2 : ℚ) ≤ interpAdvance s := by
  obtain ⟨h0, hct, h1t, ht99⟩ := hJ
  have hmax : (1/2 : ℚ) ≤ max (1/2) ((s.target - s.current) * (3/10)) :=
    le_max_left _ _
  unfold interpAdvance
  exact ⟨lt_min hlt (by linarith), min_le_left _ _,
    le_min (by linarith) (by linarith)⟩

theorem interpStep_inv {s : InterpState} (hJ : InterpInv s) (e : InterpEvent) :
    InterpInv (interpStep s e).1 := by
  cases e with
  | tick =>
    by_cases hc : (s.tickerOn && decide (s.current < s.target)) = true
    · have hlt : s.current < s.target := by
        simp only [Bool.and_eq_true, decide_eq_true_eq] at hc
        exact hc.2
      obtain ⟨hA, hB, hC⟩ := interpAdvance_bounds hJ hlt
      obtain ⟨h0, hct, h1t, ht99⟩ := hJ
      simp only [interpStep, hc, if_true]
      exact ⟨by linarith, hB, h1t, ht99⟩
    · simp only [interpStep, hc, if_false]
      exact hJ
  | native pct =>
    by_cases hc : s.target < pct
    · obtain ⟨h0, hct, h1t, ht99⟩ := hJ
      simp only [interpStep, if_pos hc]
      exact ⟨h0, le_min (by linarith) (by linarith),
        le_min (by norm_num) (by linarith), min_le_left _ _⟩
    · simp only [interpStep, if_neg hc]
      exact hJ
  | endEv => exact hJ
  | streamError m => exact hJ

theorem interp_chain (tr : List InterpEvent) :
    ∀ (s : InterpState) (L : Int), (∀ x ∈ tr, x.isTerminal = false) →
    InterpInv s → L ≤ round (max (1/2) s.current) →
    List.Chain (· ≤ ·) L
      (((runM interpStep s tr).2).map ProgressEvent.percent) := by
  induction tr with
  | nil =>
    intro s L _ _ _
    exact List.Chain.nil
  | cons e es ih =>
    intro s L h hJ hL
    have hes : ∀ x ∈ es, x.isTerminal = false :=
      fun x hx => h x (List.mem_cons_of_mem _ hx)
    cases e with
    | tick =>
      by_cases hc : (s.tickerOn && decide (s.current < s.target)) = true
      · have hlt : s.current < s.target := by
          simp only [Bool.and_eq_true, decide_eq_true_eq] at hc
          exact hc.2
        obtain ⟨hA, hB, hC⟩ := interpAdvance_bounds hJ hlt
        have hout : (runM interpStep s (InterpEvent.tick :: es)).2
            = ⟨round (interpAdvance s),
                "Extracting... " ++ toString (round (interpAdvance s)) ++ "%"⟩
              :: (runM interpStep { s with current := interpAdvance s } es).2 := by
          simp [runM, interpStep, hc]
        rw [hout, List.map_cons]
        refine List.Chain.cons ?_ ?_
        · exact le_trans hL (round_mono_rat (max_le hC (le_of_lt hA)))
        · refine ih _ _ hes ?_ ?_
          · obtain ⟨h0, hct, h1t, ht99⟩ := hJ
            exact ⟨by linarith, hB, h1t, ht99⟩
          · rw [max_eq_right hC]
      · have hout : (runM interpStep s (InterpEvent.tick :: es)).2
            = (runM interpStep s es).2 := by
          simp [runM, interpStep, hc]
        rw [hout]
        exact ih _ _ hes hJ hL
    | native pct =>
      by_cases hc : s.target < pct
      · have hout : (runM interpStep s (InterpEvent.native pct :: es)).2
            = (runM interpStep { s with target := min 99 pct } es).2 := by
          simp [runM, interpStep, hc]
        rw [hout]
        refine ih _ _ hes ?_ hL
        obtain ⟨h0, hct, h1t, ht99⟩ := hJ
        exact ⟨h0, le_min (by linarith) (by linarith),
          le_min (by norm_num) (by linarith), min_le_left _ _⟩
      · have hout : (runM interpStep s (InterpEvent.native pct :: es)).2
            = (runM interpStep s es).2 := by
          simp [runM, interpStep, hc]
        rw [hout]
        exact ih _ _ hes hJ hL
    | endEv =>
      exact absurd (h _ (List.mem_cons_self _ _)) (by simp [InterpEvent.isTerminal])
    | streamError m =>
      exact absurd (h _ (List.mem_cons_self _ _)) (by simp [InterpEvent.isTerminal])

theorem interpRun_off (tr : List InterpEvent)
    (h : ∀ x ∈ tr, x.isTerminal = false) :
    ∀ s : InterpState, s.tickerOn = false → (runM interpStep s tr).2 = [] := by
  induction tr with
  | nil =>
    intro s _
    rfl
  | cons e es ih =>
    intro s hoff
    have hes : ∀ x ∈ es, x.isTerminal = false :=
      fun x hx => h x (List.mem_cons_of_mem _ hx)
    cases e with
    | tick =>
      have hstep : (runM interpStep s (InterpEvent.tick :: es)).2
          = (runM interpStep s es).2 := by
        simp [runM, interpStep, hoff]
      rw [hstep]
      exact ih hes s hoff
    | native pct =>
      by_cases hc : s.target < pct
      · have hstep : (runM interpStep s (InterpEvent.native pct :: es)).2
            = (runM interpStep { s with target := min 99 pct } es).2 := by
          simp [runM, interpStep, hc]
        rw [hstep]
        exact ih hes _ hoff
      · have hstep : (runM interpStep s (InterpEvent.native pct :: es)).2
            = (runM interpStep s es).2 := by
          simp [runM, interpStep, hc]
        rw [hstep]
        exact ih hes s hoff
    | endEv =>
      exact absurd (h _ (List.mem_cons_self _ _)) (by simp [InterpEvent.isTerminal])
    | streamError m =>
      exact absurd (h _ (List.mem_cons_self _ _)) (by simp [InterpEvent.isTerminal])

theorem interpStep_term (s : InterpState) (e : InterpEvent)
    (h : e.isTerminal = true) :
    interpStep s e = ({ s with tickerOn := false }, [interpTermEmit e]) := by
  cases e with
  | tick => simp [InterpEvent.isTerminal] at h
  | native pct => simp [InterpEvent.isTerminal] at h
  | endEv => rfl
  | streamError m => rfl

/-! ## C1: the progress-event stream invariant -/

/-- C1: for the cited compress/extract operations (variant 1
`compressWithArchiver` with its 400 ms time-estimate ticker, and
`extract` with its 80 ms interpolation ticker), on every event trace in
which the underlying stream delivers exactly one terminal signal (with
any events around it) and ticks fire at non-decreasing elapsed times of
at least the 400 ms interval delay, the emitted stream is the initial 1%
event, a non-decreasing run of percentages, then the terminal event —
100/'Complete' on success, a reset to 0 with an empty status on failure —
and nothing after it: handlers fired after the terminal event (ticker
cleared by `clearInterval` before the promise settles) emit nothing. -/
theorem C1_progress_stream :
    (∀ (op : String) (pre post : List CurveEvent) (e : CurveEvent),
      (∀ x ∈ pre, x.isTerminal = false) →
      (∀ x ∈ post, x.isTerminal = false) →
      e.isTerminal = true →
      (∀ t ∈ curveTickTimes pre, 400 ≤ t) →
      List.Chain' (· ≤ ·) (curveTickTimes pre) →
      curveEmits op (pre ++ e :: post) =
        (⟨1, "Compressing... 1%"⟩ ::
          curveOutEmits (runM (curveStep op) ⟨true⟩ pre).2) ++ [curveTermEmit e] ∧
      List.Chain (· ≤ ·) 1
        ((curveOutEmits (runM (curveStep op) ⟨true⟩ pre).2).map ProgressEvent.percent) ∧
      curveTermEmit CurveEvent.closeEv = ⟨100, "Complete"⟩ ∧
      (∀ m, curveTermEmit (CurveEvent.archiveError m) = ⟨0, ""⟩)) ∧
    (∀ (pre post : List InterpEvent) (e : InterpEvent),
      (∀ x ∈ pre, x.isTerminal = false) →
      (∀ x ∈ post, x.isTerminal = false) →
      e.isTerminal = true →
      interpEmits (pre ++ e :: post) =
        (⟨1, "Extracting... 1%"⟩ ::
          (runM interpStep interpInit pre).2) ++ [interpTermEmit e] ∧
      List.Chain (· ≤ ·) 1
        (((runM interpStep interpInit pre).2).map ProgressEvent.percent) ∧
      interpTermEmit InterpEvent.endEv = ⟨100, "Complete"⟩ ∧
      (∀ m, interpTermEmit (InterpEvent.streamError m) = ⟨0, ""⟩)) := by
  constructor
  · intro op pre post e hpre hpost he htimes hchain
    have hstate := curve_state_nonterm op pre hpre
    have hpost' := curveRun_off op post hpost
    have h2 : curveOutEmits (runM (curveStep op) ⟨true⟩ (e :: post)).2
        = [curveTermEmit e] := by
      cases e with
      | tick t => simp [CurveEvent.isTerminal] at he
      | closeEv =>
        simp only [runM, curveStep]
        rw [hpost']
        rfl
      | archiveError m =>
        simp only [runM, curveStep]
        rw [hpost']
        rfl
    have h3 : (runM (curveStep op) ⟨true⟩ (pre ++ e :: post)).2
        = (runM (curveStep op) ⟨true⟩ pre).2
          ++ (runM (curveStep op) ⟨true⟩ (e :: post)).2 := by
      rw [runM_append, hstate]
    refine ⟨?_, ?_, rfl, fun m => rfl⟩
    · unfold curveEmits
      rw [h3, curveOutEmits_append, h2]
      simp
    · rw [curve_emits_map op pre hpre]
      exact chain_one_curve (curveTickTimes pre) htimes hchain
  · intro pre post e hpre hpost he
    have h2 : (runM interpStep (runM interpStep interpInit pre).1 (e :: post)).2
        = [interpTermEmit e] := by
      cases e with
      | tick => simp [InterpEvent.isTerminal] at he
      | native pct => simp [InterpEvent.isTerminal] at he
      | endEv =>
        simp only [runM, interpStep]
        rw [interpRun_off post hpost _ rfl]
        rfl
      | streamError m =>
        simp only [runM, interpStep]
        rw [interpRun_off post hpost _ rfl]
        rfl
    have h3 : (runM interpStep interpInit (pre ++ e :: post)).2
        = (runM interpStep interpInit pre).2 ++ [interpTermEmit e] := by
      rw [runM_append, h2]
    refine ⟨?_, ?_, rfl, fun m => rfl⟩
    · unfold interpEmits
      rw [h3]
      simp
    · have hInv : InterpInv interpInit := by
        unfold InterpInv interpInit
        norm_num
      have hL : (1 : Int) ≤ round (max (1/2 : ℚ) interpInit.current) := by
        rw [show interpInit.current = (0:ℚ) from rfl,
          max_eq_left (by norm_num : (0:ℚ) ≤ 1/2), round_eq, Int.le_floor]
        norm_num
      exact interp_chain pre interpInit 1 hpre hInv hL

/-- Witness for C1: a concrete run of each machine — one tick, a terminal
signal, then a post-settle tick that emits nothing. -/
theorem C1_progress_stream_witness :
    (curveEmits "o.zip" ([CurveEvent.tick 400] ++ CurveEvent.closeEv ::
        [CurveEvent.tick 800]) =
      (⟨1, "Compressing... 1%"⟩ ::
        curveOutEmits (runM (curveStep "o.zip") ⟨true⟩ [CurveEvent.tick 400]).2) ++
        [curveTermEmit CurveEvent.closeEv]) ∧
    List.Chain (· ≤ ·) 1
      ((curveOutEmits (runM (curveStep "o.zip") ⟨true⟩ [CurveEvent.tick 400]).2).map
        ProgressEvent.percent) ∧
    (interpEmits ([InterpEvent.tick] ++ InterpEvent.streamError "x" ::
        [InterpEvent.tick]) =
      (⟨1, "Extracting... 1%"⟩ ::
        (runM interpStep interpInit [InterpEvent.tick]).2) ++
        [interpTermEmit (InterpEvent.streamError "x")]) ∧
    List.Chain (· ≤ ·) 1
      (((runM interpStep interpInit [InterpEvent.tick]).2).map
        ProgressEvent.percent) := by
  obtain ⟨h1, h2, -, -⟩ := C1_progress_stream.1 "o.zip" [CurveEvent.tick 400]
    [CurveEvent.tick 800] CurveEvent.closeEv (by decide) (by decide) rfl
    (by decide) (List.chain'_singleton _)
  obtain ⟨h3, h4, -, -⟩ := C1_progress_stream.2 [InterpEvent.tick]
    [InterpEvent.tick] (InterpEvent.streamError "x") (by decide) (by decide) rfl
  exact ⟨h1, h2, h3, h4⟩

/-! ## Lemmas for the variant 2 byte-driven machine -/

theorem byteRawPct_le (tb p : Nat) : byteRawPct tb p ≤ 99 :=
  min_le_left _ _

theorem isTermEmit_of_bounds {p : Int} (h1 : 1 ≤ p) (h2 : p ≤ 99) (st : String) :
    isTermEmit ⟨p, st⟩ = false := by
  have e1 : (p == 100) = false := by
    simp only [beq_eq_false_iff_ne, ne_eq]
    omega
  have e2 : (p == 0) = false := by
    simp only [beq_eq_false_iff_ne, ne_eq]
    omega
  simp [isTermEmit, e1, e2]

theorem byte_chain (tb : Nat) (op : String) (tr : List ByteEvent) :
    ∀ s : ByteState, 0 ≤ s.lastPercent →
    List.Chain (· < ·) s.lastPercent
      (((runM (byteStep tb op) s tr).2).filterMap ByteOut.progressPercent) := by
  induction tr with
  | nil =>
    intro s _
    exact List.Chain.nil
  | cons e es ih =>
    intro s hs
    cases e with
    | aprogress p =>
      by_cases hc : s.lastPercent < byteRawPct tb p
      · have h1 : (1:Int) ≤ byteRawPct tb p := by omega
        have hterm := isTermEmit_of_bounds h1 (byteRawPct_le tb p)
          ("Compressing... " ++ toString (byteRawPct tb p) ++ "%")
        have hout : (runM (byteStep tb op) s (ByteEvent.aprogress p :: es)).2
            = ByteOut.emit ⟨byteRawPct tb p,
                "Compressing... " ++ toString (byteRawPct tb p) ++ "%"⟩
              :: (runM (byteStep tb op)
                  { s with lastPercent := byteRawPct tb p } es).2 := by
          simp [runM, byteStep, hc]
        rw [hout, List.filterMap_cons]
        simp only [ByteOut.progressPercent, hterm, Bool.false_eq_true, if_false]
        exact List.Chain.cons hc
          (ih { s with lastPercent := byteRawPct tb p }
            (show (0:ℤ) ≤ byteRawPct tb p by omega))
      · have hout : (runM (byteStep tb op) s (ByteEvent.aprogress p :: es)).2
            = (runM (byteStep tb op) s es).2 := by
          simp [runM, byteStep, hc]
        rw [hout]
        exact ih s hs
    | closeEv =>
      by_cases hr : s.isResolved = true
      · have hout : (runM (byteStep tb op) s (ByteEvent.closeEv :: es)).2
            = (runM (byteStep tb op) s es).2 := by
          simp [runM, byteStep, hr]
        rw [hout]
        exact ih s hs
      · have hout : (runM (byteStep tb op) s (ByteEvent.closeEv :: es)).2
            = ByteOut.emit ⟨100, "Complete"⟩ ::
              ByteOut.resolve ⟨true, some op, none⟩ ::
              (runM (byteStep tb op) { s with isResolved := true } es).2 := by
          simp [runM, byteStep, hr]
        rw [hout, List.filterMap_cons, List.filterMap_cons]
        simp only [ByteOut.progressPercent]
        norm_num [isTermEmit]
        exact ih { s with isResolved := true } hs
    | archiveError m =>
      by_cases hr : s.isResolved = true
      · have hout : (runM (byteStep tb op) s (ByteEvent.archiveError m :: es)).2
            = (runM (byteStep tb op) s es).2 := by
          simp [runM, byteStep, hr]
        rw [hout]
        exact ih s hs
      · have hout : (runM (byteStep tb op) s (ByteEvent.archiveError m :: es)).2
            = ByteOut.emit ⟨0, ""⟩ ::
              ByteOut.resolve ⟨false, none, some (errMsgOr m "Unknown error")⟩ ::
              (runM (byteStep tb op) { s with isResolved := true } es).2 := by
          simp [runM, byteStep, hr]
        rw [hout, List.filterMap_cons, List.filterMap_cons]
        simp only [ByteOut.progressPercent]
        norm_num [isTermEmit]
        exact ih { s with isResolved := true } hs
    | outputError m =>
      by_cases hr : s.isResolved = true
      · have hout : (runM (byteStep tb op) s (ByteEvent.outputError m :: es)).2
            = (runM (byteStep tb op) s es).2 := by
          simp [runM, byteStep, hr]
        rw [hout]
        exact ih s hs
      · have hout : (runM (byteStep tb op) s (ByteEvent.outputError m :: es)).2
            = ByteOut.emit ⟨0, ""⟩ ::
              ByteOut.resolve ⟨false, none, some (errMsgOr m "Unknown error")⟩ ::
              (runM (byteStep tb op) { s with isResolved := true } es).2 := by
          simp [runM, byteStep, hr]
        rw [hout, List.filterMap_cons, List.filterMap_cons]
        simp only [ByteOut.progressPercent]
        norm_num [isTermEmit]
        exact ih { s with isResolved := true } hs

theorem byte_provenance (tb : Nat) (op : String) (tr : List ByteEvent) :
    ∀ s : ByteState,
    ∀ q ∈ ((runM (byteStep tb op) s tr).2).filterMap ByteOut.progressPercent,
      ∃ p, ByteEvent.aprogress p ∈ tr ∧ q = byteRawPct tb p := by
  induction tr with
  | nil =>
    intro s q hq
    simp [runM] at hq
  | cons e es ih =>
    intro s q hq
    cases e with
    | aprogress p =>
      by_cases hc : s.lastPercent < byteRawPct tb p
      · have hout : (runM (byteStep tb op) s (ByteEvent.aprogress p :: es)).2
            = ByteOut.emit ⟨byteRawPct tb p,
                "Compressing... " ++ toString (byteRawPct tb p) ++ "%"⟩
              :: (runM (byteStep tb op)
                  { s with lastPercent := byteRawPct tb p } es).2 := by
          simp [runM, byteStep, hc]
        rw [hout, List.filterMap_cons] at hq
        by_cases hterm : isTermEmit ⟨byteRawPct tb p,
            "Compressing... " ++ toString (byteRawPct tb p) ++ "%"⟩ = true
        · simp only [ByteOut.progressPercent, hterm, if_true] at hq
          obtain ⟨u, hu, hq⟩ := ih _ q hq
          exact ⟨u, List.mem_cons_of_mem _ hu, hq⟩
        · simp only [ByteOut.progressPercent, hterm, Bool.false_eq_true,
            if_false] at hq
          rcases List.mem_cons.mp hq with hq | hq
          · exact ⟨p, List.mem_cons_self _ _, hq⟩
          · obtain ⟨u, hu, hq⟩ := ih _ q hq
            exact ⟨u, List.mem_cons_of_mem _ hu, hq⟩
      · have hout : (runM (byteStep tb op) s (ByteEvent.aprogress p :: es)).2
            = (runM (byteStep tb op) s es).2 := by
          simp [runM, byteStep, hc]
        rw [hout] at hq
        obtain ⟨u, hu, hq⟩ := ih s q hq
        exact ⟨u, List.mem_cons_of_mem _ hu, hq⟩
    | closeEv =>
      by_cases hr : s.isResolved = true
      · have hout : (runM (byteStep tb op) s (ByteEvent.closeEv :: es)).2
            = (runM (byteStep tb op) s es).2 := by
          simp [runM, byteStep, hr]
        rw [hout] at hq
        obtain ⟨u, hu, hq⟩ := ih s q hq
        exact ⟨u, List.mem_cons_of_mem _ hu, hq⟩
      · have hout : (runM (byteStep tb op) s (ByteEvent.closeEv :: es)).2
            = ByteOut.emit ⟨100, "Complete"⟩ ::
              ByteOut.resolve ⟨true, some op, none⟩ ::
              (runM (byteStep tb op) { s with isResolved := true } es).2 := by
          simp [runM, byteStep, hr]
        rw [hout] at hq
        simp only [List.filterMap_cons,
          show ByteOut.progressPercent (ByteOut.emit ⟨100, "Complete"⟩)
            = none from rfl,
          show ByteOut.progressPercent (ByteOut.resolve ⟨true, some op, none⟩)
            = none from rfl] at hq
        obtain ⟨u, hu, hq⟩ := ih { s with isResolved := true } q hq
        exact ⟨u, List.mem_cons_of_mem _ hu, hq⟩
    | archiveError m =>
      by_cases hr : s.isResolved = true
      · have hout : (runM (byteStep tb op) s (ByteEvent.archiveError m :: es)).2
            = (runM (byteStep tb op) s es).2 := by
          simp [runM, byteStep, hr]
        rw [hout] at hq
        obtain ⟨u, hu, hq⟩ := ih s q hq
        exact ⟨u, List.mem_cons_of_mem _ hu, hq⟩
      · have hout : (runM (byteStep tb op) s (ByteEvent.archiveError m :: es)).2
            = ByteOut.emit ⟨0, ""⟩ ::
              ByteOut.resolve ⟨false, none, some (errMsgOr m "Unknown error")⟩ ::
              (runM (byteStep tb op) { s with isResolved := true } es).2 := by
          simp [runM, byteStep, hr]
        rw [hout] at hq
        simp only [List.filterMap_cons,
          show ByteOut.progressPercent (ByteOut.emit ⟨0, ""⟩) = none from rfl,
          show ByteOut.progressPercent
            (ByteOut.resolve ⟨false, none, some (errMsgOr m "Unknown error")⟩)
            = none from rfl] at hq
        obtain ⟨u, hu, hq⟩ := ih { s with isResolved := true } q hq
        exact ⟨u, List.mem_cons_of_mem _ hu, hq⟩
    | outputError m =>
      by_cases hr : s.isResolved = true
      · have hout : (runM (byteStep tb op) s (ByteEvent.outputError m :: es)).2
            = (runM (byteStep tb op) s es).2 := by
          simp [runM, byteStep, hr]
        rw [hout] at hq
        obtain ⟨u, hu, hq⟩ := ih s q hq
        exact ⟨u, List.mem_cons_of_mem _ hu, hq⟩
      · have hout : (runM (byteStep tb op) s (ByteEvent.outputError m :: es)).2
            = ByteOut.emit ⟨0, ""⟩ ::
              ByteOut.resolve ⟨false, none, some (errMsgOr m "Unknown error")⟩ ::
              (runM (byteStep tb op) { s with isResolved := true } es).2 := by
          simp [runM, byteStep, hr]
        rw [hout] at hq
        simp only [List.filterMap_cons,
          show ByteOut.progressPercent (ByteOut.emit ⟨0, ""⟩) = none from rfl,
          show ByteOut.progressPercent
            (ByteOut.resolve ⟨false, none, some (errMsgOr m "Unknown error")⟩)
            = none from rfl] at hq
        obtain ⟨u, hu, hq⟩ := ih { s with isResolved := true } q hq
        exact ⟨u, List.mem_cons_of_mem _ hu, hq⟩

theorem byte_absorb (tb : Nat) (op : String) (tr : List ByteEvent) :
    ∀ s : ByteState, s.isResolved = true → 0 ≤ s.lastPercent →
    (runM (byteStep tb op) s tr).2.countP ByteOut.isResolve = 0 ∧
    (runM (byteStep tb op) s tr).2.countP ByteOut.isTerminalEmit = 0 := by
  induction tr with
  | nil =>
    intro s _ _
    exact ⟨rfl, rfl⟩
  | cons e es ih =>
    intro s hr hs
    cases e with
    | aprogress p =>
      by_cases hc : s.lastPercent < byteRawPct tb p
      · have h1 : (1:Int) ≤ byteRawPct tb p := by omega
        have hterm := isTermEmit_of_bounds h1 (byteRawPct_le tb p)
          ("Compressing... " ++ toString (byteRawPct tb p) ++ "%")
        have hout : (runM (byteStep tb op) s (ByteEvent.aprogress p :: es)).2
            = ByteOut.emit ⟨byteRawPct tb p,
                "Compressing... " ++ toString (byteRawPct tb p) ++ "%"⟩
              :: (runM (byteStep tb op)
                  { s with lastPercent := byteRawPct tb p } es).2 := by
          simp [runM, byteStep, hc]
        have hrec := ih { s with lastPercent := byteRawPct tb p } hr
          (show (0:ℤ) ≤ byteRawPct tb p by omega)
        rw [hout]
        constructor
        · simpa [List.countP_cons, ByteOut.isResolve] using hrec.1
        · simp [List.countP_cons, ByteOut.isTerminalEmit, hterm, hrec.2]
      · have hout : (runM (byteStep tb op) s (ByteEvent.aprogress p :: es)).2
            = (runM (byteStep tb op) s es).2 := by
          simp [runM, byteStep, hc]
        rw [hout]
        exact ih s hr hs
    | closeEv =>
      have hout : (runM (byteStep tb op) s (ByteEvent.closeEv :: es)).2
          = (runM (byteStep tb op) s es).2 := by
        simp [runM, byteStep, hr]
      rw [hout]
      exact ih s hr hs
    | archiveError m =>
      have hout : (runM (byteStep tb op) s (ByteEvent.archiveError m :: es)).2
          = (runM (byteStep tb op) s es).2 := by
        simp [runM, byteStep, hr]
      rw [hout]
      exact ih s hr hs
    | outputError m =>
      have hout : (runM (byteStep tb op) s (ByteEvent.outputError m :: es)).2
          = (runM (byteStep tb op) s es).2 := by
        simp [runM, byteStep, hr]
      rw [hout]
      exact ih s hr hs

theorem byte_exactly_once (tb : Nat) (op : String) (tr : List ByteEvent) :
    ∀ s : ByteState, s.isResolved = false → 0 ≤ s.lastPercent →
    (runM (byteStep tb op) s tr).2.countP ByteOut.isResolve ≤ 1 ∧
    (runM (byteStep tb op) s tr).2.countP ByteOut.isTerminalEmit ≤ 1 ∧
    ((∃ e ∈ tr, e.isTerminal = true) →
      (runM (byteStep tb op) s tr).2.countP ByteOut.isResolve = 1) := by
  induction tr with
  | nil =>
    intro s _ _
    refine ⟨by simp [runM], by simp [runM], fun h => ?_⟩
    simp at h
  | cons e es ih =>
    intro s hr hs
    cases e with
    | aprogress p =>
      have hnotterm : ∀ hex : ∃ x ∈ ByteEvent.aprogress p :: es, x.isTerminal = true,
          ∃ x ∈ es, x.isTerminal = true := by
        intro hex
        obtain ⟨x, hx, hxt⟩ := hex
        rcases List.mem_cons.mp hx with rfl | hx'
        · simp [ByteEvent.isTerminal] at hxt
        · exact ⟨x, hx', hxt⟩
      by_cases hc : s.lastPercent < byteRawPct tb p
      · have h1 : (1:Int) ≤ byteRawPct tb p := by omega
        have hterm := isTermEmit_of_bounds h1 (byteRawPct_le tb p)
          ("Compressing... " ++ toString (byteRawPct tb p) ++ "%")
        have hout : (runM (byteStep tb op) s (ByteEvent.aprogress p :: es)).2
            = ByteOut.emit ⟨byteRawPct tb p,
                "Compressing... " ++ toString (byteRawPct tb p) ++ "%"⟩
              :: (runM (byteStep tb op)
                  { s with lastPercent := byteRawPct tb p } es).2 := by
          simp [runM, byteStep, hc]
        have hrec := ih { s with lastPercent := byteRawPct tb p } hr
          (show (0:ℤ) ≤ byteRawPct tb p by omega)
        rw [hout]
        refine ⟨?_, ?_, fun hex => ?_⟩
        · simpa [List.countP_cons, ByteOut.isResolve] using hrec.1
        · simpa [List.countP_cons, ByteOut.isTerminalEmit, hterm] using hrec.2.1
        · simpa [List.countP_cons, ByteOut.isResolve]
            using hrec.2.2 (hnotterm hex)
      · have hout : (runM (byteStep tb op) s (ByteEvent.aprogress p :: es)).2
            = (runM (byteStep tb op) s es).2 := by
          simp [runM, byteStep, hc]
        have hrec := ih s hr hs
        rw [hout]
        exact ⟨hrec.1, hrec.2.1, fun hex => hrec.2.2 (hnotterm hex)⟩
    | closeEv =>
      have hout : (runM (byteStep tb op) s (ByteEvent.closeEv :: es)).2
          = ByteOut.emit ⟨100, "Complete"⟩ ::
            ByteOut.resolve ⟨true, some op, none⟩ ::
            (runM (byteStep tb op) { s with isResolved := true } es).2 := by
        simp [runM, byteStep, hr]
      have habs := byte_absorb tb op es { s with isResolved := true } rfl hs
      rw [hout]
      refine ⟨?_, ?_, fun _ => ?_⟩
      · simp [List.countP_cons, ByteOut.isResolve, habs.1]
      · simp [List.countP_cons, ByteOut.isTerminalEmit, isTermEmit, habs.2]
      · simp [List.countP_cons, ByteOut.isResolve, habs.1]
    | archiveError m =>
      have hout : (runM (byteStep tb op) s (ByteEvent.archiveError m :: es)).2
          = ByteOut.emit ⟨0, ""⟩ ::
            ByteOut.resolve ⟨false, none, some (errMsgOr m "Unknown error")⟩ ::
            (runM (byteStep tb op) { s with isResolved := true } es).2 := by
        simp [runM, byteStep, hr]
      have habs := byte_absorb tb op es { s with isResolved := true } rfl hs
      rw [hout]
      refine ⟨?_, ?_, fun _ => ?_⟩
      · simp [List.countP_cons, ByteOut.isResolve, habs.1]
      · simp [List.countP_cons, ByteOut.isTerminalEmit, isTermEmit, habs.2]
      · simp [List.countP_cons, ByteOut.isResolve, habs.1]
    | outputError m =>
      have hout : (runM (byteStep tb op) s (ByteEvent.outputError m :: es)).2
          = ByteOut.emit ⟨0, ""⟩ ::
            ByteOut.resolve ⟨false, none, some (errMsgOr m "Unknown error")⟩ ::
            (runM (byteStep tb op) { s with isResolved := true } es).2 := by
        simp [runM, byteStep, hr]
      have habs := byte_absorb tb op es { s with isResolved := true } rfl hs
      rw [hout]
      refine ⟨?_, ?_, fun _ => ?_⟩
      · simp [List.countP_cons, ByteOut.isResolve, habs.1]
      · simp [List.countP_cons, ByteOut.isTerminalEmit, isTermEmit, habs.2]
      · simp [List.countP_cons, ByteOut.isResolve, habs.1]

/-- C7 (amended): in the byte-driven variant of `compressWithArchiver`
(variant 2) — the other variant is refuted by `C7_counterexample` — the
non-terminal progress emissions of every run are strictly increasing
(each is emitted only when the computed value strictly exceeds the last
emitted value, starting above the initial `lastPercent = 0`), and every
emitted percent equals `min(99, round(processed/totalBytes·100))` for
the `processedBytes` of some progress event of the trace. -/
theorem C7_amended_byte_progress (tb : Nat) (op : String)
    (tr : List ByteEvent) :
    List.Chain (· < ·) 0
      (((runM (byteStep tb op) byteInit tr).2).filterMap
        ByteOut.progressPercent) ∧
    (∀ q ∈ ((runM (byteStep tb op) byteInit tr).2).filterMap
        ByteOut.progressPercent,
      ∃ p, ByteEvent.aprogress p ∈ tr ∧ q = byteRawPct tb p) :=
  ⟨byte_chain tb op tr byteInit (le_refl 0),
   byte_provenance tb op tr byteInit⟩

/-- Witness for the amended C7: with `totalBytes = 100` and one progress
event at 50 processed bytes the machine emits exactly the percent 50. -/
theorem C7_amended_byte_progress_witness :
    ((runM (byteStep 100 "o.zip") byteInit [ByteEvent.aprogress 50]).2).filterMap
      ByteOut.progressPercent = [50] ∧
    List.Chain (· < ·) 0
      (((runM (byteStep 100 "o.zip") byteInit [ByteEvent.aprogress 50]).2).filterMap
        ByteOut.progressPercent) ∧
    (∃ p, ByteEvent.aprogress p ∈ [ByteEvent.aprogress 50] ∧
      (50 : Int) = byteRawPct 100 p) := by
  have h50 : byteRawPct 100 50 = 50 := by
    unfold byteRawPct
    rw [show ((50:ℕ):ℚ) / ((100:ℕ):ℚ) * 100 = ((50:ℕ):ℚ) from by norm_num,
      round_natCast]
    norm_num
  have hterm : isTermEmit ⟨(50:Int), "Compressing... " ++ toString (50:Int) ++ "%"⟩
      = false := isTermEmit_of_bounds (by norm_num) (by norm_num) _
  have hlist : ((runM (byteStep 100 "o.zip") byteInit
      [ByteEvent.aprogress 50]).2).filterMap ByteOut.progressPercent = [50] := by
    have hstep : (runM (byteStep 100 "o.zip") byteInit [ByteEvent.aprogress 50]).2
        = [ByteOut.emit ⟨(50:Int), "Compressing... " ++ toString (50:Int) ++ "%"⟩] := by
      simp [runM, byteStep, byteInit, h50]
    rw [hstep, List.filterMap_cons]
    simp [ByteOut.progressPercent, hterm]
  refine ⟨hlist, (C7_amended_byte_progress 100 "o.zip" [ByteEvent.aprogress 50]).1,
    (C7_amended_byte_progress 100 "o.zip" [ByteEvent.aprogress 50]).2 50 ?_⟩
  rw [hlist]
  exact List.mem_singleton.mpr rfl

/-- C8 (amended): in the byte-driven variant of `compressWithArchiver`
(variant 2) the `isResolved` completion latch deduplicates duplicate
completion and error signals: on every event trace at most one `resolve`
is invoked and at most one terminal progress signal is emitted, and if
the trace contains a completion or error signal, `resolve` is invoked
exactly once. The time-estimate variant has no latch and is refuted by
`C8_counterexample`, though the promise machinery still ignores its
second `resolve` call. -/
theorem C8_amended_latch (tb : Nat) (op : String) (tr : List ByteEvent) :
    (runM (byteStep tb op) byteInit tr).2.countP ByteOut.isResolve ≤ 1 ∧
    (runM (byteStep tb op) byteInit tr).2.countP ByteOut.isTerminalEmit ≤ 1 ∧
    ((∃ e ∈ tr, e.isTerminal = true) →
      (runM (byteStep tb op) byteInit tr).2.countP ByteOut.isResolve = 1) :=
  byte_exactly_once tb op tr byteInit rfl (le_refl 0)

/-- Witness for the amended C8: a duplicate `close`-then-`error` trace
still yields exactly one `resolve` and one terminal emission. -/
theorem C8_amended_latch_witness :
    (runM (byteStep 10 "o.zip") byteInit
      [ByteEvent.closeEv, ByteEvent.archiveError "x"]).2.countP
        ByteOut.isResolve = 1 ∧
    (runM (byteStep 10 "o.zip") byteInit
      [ByteEvent.closeEv, ByteEvent.archiveError "x"]).2.countP
        ByteOut.isTerminalEmit ≤ 1 :=
  ⟨(C8_amended_latch 10 "o.zip" [ByteEvent.closeEv, ByteEvent.archiveError "x"]).2.2
      ⟨ByteEvent.closeEv, List.mem_cons_self _ _, rfl⟩,
   (C8_amended_latch 10 "o.zip" [ByteEvent.closeEv, ByteEvent.archiveError "x"]).2.1⟩

/-! ## `test` (identical in both variants): classifier and frame property -/

/-- The outcome of one `execFile` invocation of the external tool:
`err` is the error callback argument's message, if the tool failed. -/
structure ToolOutcome where
  err : Option String
  stdout : String
  stderr : String
  deriving Repr, DecidableEq

structure TestResult where
  success : Bool
  error : Option String
  deriving Repr, DecidableEq

/-- The failure markers `test` searches for, case-insensitively, in the
combined stdout+stderr (`(stdout + stderr).toLowerCase()`). -/
def wrongPasswordMarker (o : ToolOutcome) : Bool :=
  let outStr := lowerStr (o.stdout ++ o.stderr)
  strContains outStr "wrong password" ||
  strContains outStr "cannot open encrypted archive" ||
  strContains outStr "data error"

/-- `stdout.includes('Encrypted = +')` (case-sensitive). -/
def encryptedFlag (o : ToolOutcome) : Bool :=
  strContains o.stdout "Encrypted = +"

/-- Embedding of the `execFile` callback of `test` (compressor.ts, both
variants): on tool failure, a password marker in the lower-cased combined
output classifies as 'Wrong password', otherwise the raw error message is
returned; on tool success with no (truthy) password supplied and the
listing showing `Encrypted = +`, classifies as 'Password required';
otherwise success. -/
def classifyTest (password : Option String) (o : ToolOutcome) : TestResult :=
  match o.err with
  | some msg =>
    if wrongPasswordMarker o then ⟨false, some "Wrong password"⟩
    else ⟨false, some msg⟩
  | none =>
    if !truthyPw password && encryptedFlag o then ⟨false, some "Password required"⟩
    else ⟨true, none⟩

/-- The argument list `test` passes to the external tool:
`['l', '-slt', -p<password>?, archivePath]` — 7-Zip's list-only command. -/
def testArgs (password : Option String) (archivePath : String) : List String :=
  ["l", "-slt"] ++
  (if truthyPw password then ["-p" ++ password.getD ""] else []) ++
  [archivePath]

/-- Embedding of `test` over an abstract filesystem `Fs`: the only
filesystem interactions are the `existsSync` read and the external tool
invocation `runTool` with the list-only argument vector; the resulting
filesystem is whatever `runTool` returns. -/
def testRun {Fs : Type} (runTool : List String → Fs → ToolOutcome × Fs)
    (existsSync : Fs → String → Bool) (fs : Fs)
    (archivePath : String) (password : Option String) : TestResult × Fs :=
  if existsSync fs archivePath = false then
    (⟨false, some "Archive not found"⟩, fs)
  else
    let r := runTool (testArgs password archivePath) fs
    (classifyTest password r.1, r.2)

/-! ## `compress7z` failure handling (both variants): C3 -/

/-- What the filesystem holds at `outputPath` when `finish(false, ...)`
checks it: no file, a stat-able file of a given size, or an exception
from `existsSync`/`statSync` (swallowed by the `catch`). -/
inductive OutFile
  | absent
  | present (size : Nat)
  | statError
  deriving Repr, DecidableEq

/-- `fs.existsSync(outputPath) && fs.statSync(outputPath).size > 0`,
with a thrown exception falling through to the failure path. -/
def outputNonEmpty : OutFile → Bool
  | .present n => decide (0 < n)
  | .absent => false
  | .statError => false

/-- Embedding of variant 2 `compress7z`'s `finish`: on success emit 100
and resolve success; on reported failure, a non-empty output file
upgrades the result to success (100/'Complete'), otherwise the progress
is reset to 0 and the failure carries `error || 'Compression failed'`. -/
def finish7z (outPath : String) (fsOut : OutFile) (success : Bool)
    (error : Option String) : CompressResult × ProgressEvent :=
  if success then (⟨true, some outPath, none⟩, ⟨100, "Complete"⟩)
  else if outputNonEmpty fsOut then (⟨true, some outPath, none⟩, ⟨100, "Complete"⟩)
  else (⟨false, none, some (errMsgOr (error.getD "") "Compression failed")⟩,
    ⟨0, ""⟩)

/-- Embedding of variant 1 `compress7z`'s `error` handler (compressor.ts
lines 217-221): `clearInterval(ticker); this.progress(0, '');
resolve({ success: false, error: err.message })` — the failure is
resolved unconditionally, without consulting the filesystem state
`fsOut` at the output path (no `existsSync`/`statSync` check). -/
def finish7zErrorV1 (_fsOut : OutFile) (msg : String) :
    CompressResult × ProgressEvent :=
  (⟨false, none, some msg⟩, ⟨0, ""⟩)

/-! ## Theorems: C2, C3, C9 -/

/-- C2: `test`'s classifier — on tool failure, a case-insensitive match
of 'wrong password', 'cannot open encrypted archive' or 'data error' in
the combined stdout+stderr classifies as wrong-password; on tool success
with no password supplied and an `Encrypted = +` flag in the listing,
classifies as password-required with `success = false`; otherwise the
raw error (on failure) or success is returned, and the three outcomes
carry distinct error messages. -/
theorem C2_test_classification (password : Option String) (o : ToolOutcome) :
    (∀ msg, o.err = some msg → wrongPasswordMarker o = true →
      classifyTest password o = ⟨false, some "Wrong password"⟩) ∧
    (∀ msg, o.err = some msg → wrongPasswordMarker o = false →
      classifyTest password o = ⟨false, some msg⟩) ∧
    (o.err = none → truthyPw password = false → encryptedFlag o = true →
      classifyTest password o = ⟨false, some "Password required"⟩) ∧
    (o.err = none → (truthyPw password = true ∨ encryptedFlag o = false) →
      classifyTest password o = ⟨true, none⟩) ∧
    (TestResult.mk false (some "Wrong password") ≠
      TestResult.mk false (some "Password required")) := by
  refine ⟨?_, ?_, ?_, ?_, by decide⟩
  · intro msg hmsg hm
    simp [classifyTest, hmsg, hm]
  · intro msg hmsg hm
    simp [classifyTest, hmsg, hm]
  · intro h hp hf
    simp [classifyTest, h, hp, hf]
  · intro h hd
    rcases hd with hp | hf
    · simp [classifyTest, h, hp]
    · simp [classifyTest, h, hf]

/-- Witness for C2 at concrete tool outcomes. -/
theorem C2_test_classification_witness :
    classifyTest (some "pw") ⟨some "exit 2", "Wrong PASSWORD detected", ""⟩ =
      ⟨false, some "Wrong password"⟩ ∧
    classifyTest none ⟨none, "Path = a.zip\nEncrypted = +", ""⟩ =
      ⟨false, some "Password required"⟩ ∧
    classifyTest none ⟨none, "Path = a.zip\nEncrypted = -", ""⟩ = ⟨true, none⟩ :=
  ⟨(C2_test_classification (some "pw") ⟨some "exit 2", "Wrong PASSWORD detected", ""⟩).1
      "exit 2" rfl (by decide),
   (C2_test_classification none ⟨none, "Path = a.zip\nEncrypted = +", ""⟩).2.2.1
      rfl rfl (by decide),
   (C2_test_classification none ⟨none, "Path = a.zip\nEncrypted = -", ""⟩).2.2.2.1
      rfl (Or.inr (by decide))⟩

/-- C3 counterexample: variant 1 `compress7z`'s error handler performs no
output-file check — with a reported failure and a non-empty 5-byte output
file present at the output path, the result is still a failure (with the
0-reset progress event), not the success the claim requires for every
external-backend compression. -/
theorem C3_counterexample :
    outputNonEmpty (OutFile.present 5) = true ∧
    (finish7zErrorV1 (OutFile.present 5) "warn").1 =
      ⟨false, none, some "warn"⟩ ∧
    (finish7zErrorV1 (OutFile.present 5) "warn").2 = ⟨0, ""⟩ :=
  ⟨rfl, rfl, rfl⟩

/-- C3 (amended): when the byte-checked variant of `compress7z`
(variant 2) reports a failure — the other variant's error handler checks
nothing and is refuted by `C3_counterexample` — a non-empty output file
at `outputPath` turns the result into success with the output path
populated and a terminal 100% event; with no non-empty output file the
result is a failure carrying the error text (or the default). -/
theorem C3_output_file_overrides_failure (outPath : String) (fsOut : OutFile)
    (error : Option String) :
    (∀ n, fsOut = OutFile.present n → 0 < n →
      finish7z outPath fsOut false error =
        (⟨true, some outPath, none⟩, ⟨100, "Complete"⟩)) ∧
    (outputNonEmpty fsOut = false →
      finish7z outPath fsOut false error =
        (⟨false, none, some (errMsgOr (error.getD "") "Compression failed")⟩,
         ⟨0, ""⟩)) := by
  constructor
  · intro n hfs hn
    subst hfs
    simp [finish7z, outputNonEmpty, hn]
  · intro h
    simp [finish7z, h]

/-- Witness for the amended C3: in variant 2, a 5-byte output file
upgrades a reported failure to success; an absent file keeps it a
failure with the error text. -/
theorem C3_output_file_overrides_failure_witness :
    finish7z "a.7z" (OutFile.present 5) false (some "warn") =
      (⟨true, some "a.7z", none⟩, ⟨100, "Complete"⟩) ∧
    finish7z "a.7z" OutFile.absent false (some "boom") =
      (⟨false, none, some (errMsgOr ((some "boom").getD "") "Compression failed")⟩,
       ⟨0, ""⟩) :=
  ⟨(C3_output_file_overrides_failure "a.7z" (OutFile.present 5) (some "warn")).1
      5 rfl (by decide),
   (C3_output_file_overrides_failure "a.7z" OutFile.absent (some "boom")).2
      (by decide)⟩

/-- C9: `test` performs no filesystem mutation — it only reads via
`existsSync` and invokes the external tool with the list-only command
`l`; under the tool's contract that a listing invocation preserves the
filesystem, the filesystem after `test` equals the filesystem before. -/
theorem C9_test_no_fs_mutation {Fs : Type}
    (runTool : List String → Fs → ToolOutcome × Fs)
    (existsSync : Fs → String → Bool) (fs : Fs)
    (archivePath : String) (password : Option String)
    (hlist : ∀ args f, args.head? = some "l" → (runTool args f).2 = f) :
    (testRun runTool existsSync fs archivePath password).2 = fs ∧
    (testArgs password archivePath).head? = some "l" := by
  refine ⟨?_, rfl⟩
  unfold testRun
  by_cases hex : existsSync fs archivePath = false
  · simp [hex]
  · simp [hex]
    exact hlist _ fs rfl

/-- Witness for C9 with a concrete read-only tool over `Fs = ℕ`. -/
theorem C9_test_no_fs_mutation_witness :
    (testRun (fun (_ : List String) (f : Nat) => ((⟨none, "", ""⟩ : ToolOutcome), f))
      (fun _ _ => true) 7 "a.zip" none).2 = 7 :=
  (C9_test_no_fs_mutation
    (fun (_ : List String) (f : Nat) => ((⟨none, "", ""⟩ : ToolOutcome), f))
    (fun _ _ => true) 7 "a.zip" none (fun _ _ _ => rfl)).1
